import Mathlib

/-!
Shallow embedding of the reversible-mutation workflow of the
copilot-environment-action repository: the git configuration
capture/restore component (`src/managers/gitManager.ts`), the hook
neutralization component (`src/managers/hookManager.ts`), the snapshot
store (`src/utils/backup.ts`), the setup/rollback orchestrator
(`src/setup.ts`) and the cleanup / emergency-cleanup pipeline
(`src/utils/backup.ts`, second half).

Git configuration is modelled as two scopes (local and global), each a
partial map from key to value.  Values are modelled post-trim: the
source reads `git config <key>` output and trims it, so a stored value
never carries surrounding whitespace in the model.  External `git
config` invocations become pure state transformers; an invocation run
with `ignoreReturnCode: true` is modelled by discarding the failure of
the underlying primitive.
-/

/-- A git configuration scope: a partial map from config key to value. -/
def ConfigMap : Type := String → Option String

/-- Result of `git config <key> <value>` on one scope. -/
def setKey (m : ConfigMap) (k v : String) : ConfigMap :=
  fun k' => if k' = k then some v else m k'

/-- Removal of a key from one scope (the effect of a successful
`git config --unset <key>`). -/
def unsetKey (m : ConfigMap) (k : String) : ConfigMap :=
  fun k' => if k' = k then none else m k'

/-- The scope map with no keys set. -/
def emptyMap : ConfigMap := fun _ => none

/-- The primitive `git config --unset <key>`: exits non-zero (modelled
as an error) when the key is not present, otherwise removes it. -/
def gitConfigUnset (m : ConfigMap) (k : String) : Except String ConfigMap :=
  if (m k).isSome then .ok (unsetKey m k) else .error "exit code 5: key not set"

/-- The effect of running a fallible git command with
`ignoreReturnCode: true`: a failure leaves the scope unchanged. -/
def execIgnoreRC (m : ConfigMap) (r : Except String ConfigMap) : ConfigMap :=
  match r with
  | .ok m' => m'
  | .error _ => m

/-- Git configuration state over the two scopes the source touches. -/
structure GitState where
  localConfig : ConfigMap
  globalConfig : ConfigMap

namespace GitManager

/-- Effective value of a key as `git config <key>` reports it: the
local scope shadows the global scope. -/
def effectiveLookup (st : GitState) (k : String) : Option String :=
  match st.localConfig k with
  | some v => some v
  | none => st.globalConfig k

/-- Model of `GitManager.getGitConfig`: reads `git config <key>` and
returns `output.trim() || undefined`, so an unset key and a key whose
value is the empty string are both reported as `undefined`. -/
def getGitConfig (st : GitState) (k : String) : Option String :=
  match effectiveLookup st k with
  | some v => if v = "" then none else some v
  | none => none

/-- The shape of `GitConfigBackup` from `src/types/interfaces.ts`:
optional named fields plus the open-ended `originalConfigs` record
(modelled as an association list in insertion order). -/
structure GitConfigBackup where
  userName : Option String
  userEmail : Option String
  hooksPath : Option String
  remoteUrl : Option String
  originalConfigs : List (String × String)
deriving DecidableEq, Repr

/-- The `gitConfig` value `createBackup` initializes a `BackupInfo`
with: `{ originalConfigs: {} }`, every named field `undefined`. -/
def emptyGitConfigBackup : GitConfigBackup :=
  ⟨none, none, none, none, []⟩

/-- The fixed list of additional keys `backupGitConfig` reads. -/
def additionalConfigs : List String :=
  ["credential.helper", "core.autocrlf", "core.safecrlf", "pull.rebase"]

/-- Model of `GitManager.backupGitConfig`: reads the four named keys via
`getGitConfig` and records each additional key only when its value is
truthy (`if (value)`); `getGitConfig` never returns an empty string, so
the filter keeps exactly the keys it reports as present. -/
def backupGitConfig (st : GitState) : GitConfigBackup where
  userName := getGitConfig st "user.name"
  userEmail := getGitConfig st "user.email"
  hooksPath := getGitConfig st "core.hooksPath"
  remoteUrl := getGitConfig st "remote.origin.url"
  originalConfigs :=
    additionalConfigs.filterMap fun k => (getGitConfig st k).map fun v => (k, v)

/-- TypeScript truthiness of an optional string: `undefined` and the
empty string are both falsy. -/
def truthyOpt : Option String → Option String
  | some v => if v = "" then none else some v
  | none => none

/-- Model of `GitManager.restoreGitConfig`.  Guarded by truthiness
(`if (backup.userName)` and so on): user name and email are set at
global scope when truthy; `core.hooksPath` is set at local scope when
truthy and otherwise unset at local scope only (with
`ignoreReturnCode`); the remote URL is written by `git remote set-url
origin`, which stores `remote.origin.url` in the local config; finally
every `originalConfigs` entry is set at global scope unconditionally,
in list order, after all the named fields. -/
def restoreGitConfig (b : GitConfigBackup) (st : GitState) : GitState :=
  let st1 : GitState :=
    match truthyOpt b.userName with
    | some v => { st with globalConfig := setKey st.globalConfig "user.name" v }
    | none => st
  let st2 : GitState :=
    match truthyOpt b.userEmail with
    | some v => { st1 with globalConfig := setKey st1.globalConfig "user.email" v }
    | none => st1
  let st3 : GitState :=
    match truthyOpt b.hooksPath with
    | some v => { st2 with localConfig := setKey st2.localConfig "core.hooksPath" v }
    | none =>
      { st2 with
        localConfig :=
          execIgnoreRC st2.localConfig (gitConfigUnset st2.localConfig "core.hooksPath") }
  let st4 : GitState :=
    match truthyOpt b.remoteUrl with
    | some v => { st3 with localConfig := setKey st3.localConfig "remote.origin.url" v }
    | none => st3
  b.originalConfigs.foldl
    (fun s kv => { s with globalConfig := setKey s.globalConfig kv.1 kv.2 }) st4

/-- Model of `GitManager.enableHooks`: unsets `core.hooksPath` at local
scope then at global scope, each with `ignoreReturnCode: true`, so a
scope where the key was never set does not make the operation fail. -/
def enableHooks (st : GitState) : GitState where
  localConfig :=
    execIgnoreRC st.localConfig (gitConfigUnset st.localConfig "core.hooksPath")
  globalConfig :=
    execIgnoreRC st.globalConfig (gitConfigUnset st.globalConfig "core.hooksPath")

/-- The POSIX sentinel `HOOKS_DISABLED_PATH` from `constants.ts`. -/
def HOOKS_DISABLED_PATH : String := "/dev/null"

/-- Model of `GitManager.disableHooks` (the config-path redirection
forward step): sets `core.hooksPath` to the discard sentinel at local
scope and then at global scope. -/
def disableHooks (st : GitState) : GitState where
  localConfig := setKey st.localConfig "core.hooksPath" HOOKS_DISABLED_PATH
  globalConfig := setKey st.globalConfig "core.hooksPath" HOOKS_DISABLED_PATH

/-- The fixed identity `setupCopilotUser` installs, from `constants.ts`. -/
def COPILOT_USER_NAME : String := "copilot-swe-agent[bot]"

/-- The fixed email `setupCopilotUser` installs, from `constants.ts`. -/
def COPILOT_USER_EMAIL : String := "198982749+Copilot@users.noreply.github.com"

/-- Model of `GitManager.setupCopilotUser`: sets the agent identity at
global scope. -/
def setupCopilotUser (st : GitState) : GitState where
  localConfig := st.localConfig
  globalConfig :=
    setKey (setKey st.globalConfig "user.name" COPILOT_USER_NAME)
      "user.email" COPILOT_USER_EMAIL

end GitManager

/-!
Hook neutralization (`src/managers/hookManager.ts`).  The husky hook
directory is modelled as an optional association list from entry name
to filesystem node (a file with its textual content, or a
subdirectory); `none` means the directory itself does not exist.
-/

/-- A directory entry: a regular file with its content, or a
subdirectory (whose own contents are irrelevant to the hook manager). -/
inductive FsNode
  | file (content : String)
  | subdir
deriving DecidableEq, Repr

/-- The husky hooks directory: `none` when `.husky` does not exist. -/
def HuskyDir : Type := Option (List (String × FsNode))

/-- Whether the character list `s` starts with the character list `p`. -/
def charsStartWith : List Char → List Char → Bool
  | _, [] => true
  | [], _ :: _ => false
  | c :: s, p :: ps => c = p && charsStartWith s ps

/-- Whether the character list `s` contains `p` as a contiguous
sublist (the model of JavaScript `String.prototype.includes`). -/
def charsContain : List Char → List Char → Bool
  | [], p => p.isEmpty
  | c :: s, p => charsStartWith (c :: s) p || charsContain s p

/-- String containment, as `content.includes(marker)` computes it. -/
def strIncludes (s pat : String) : Bool :=
  charsContain s.data pat.data

/-- Whether string `s` starts with string `p`. -/
def strStartsWith (s pat : String) : Bool :=
  charsStartWith s.data pat.data

/-- Whether string `s` ends with string `p`. -/
def strEndsWith (s pat : String) : Bool :=
  charsStartWith s.data.reverse pat.data.reverse

namespace HookManager

/-- The no-op body `NOOP_HOOK_CONTENT` from `constants.ts`. -/
def NOOP_HOOK_CONTENT : String :=
  "#!/usr/bin/env sh\n# Disabled by Copilot Environment Action\nexit 0\n"

/-- The marker substring `verifyHooksDisabled` searches for. -/
def MARKER : String := "Disabled by Copilot Environment Action"

/-- The `COMMON_HOOKS` list from `constants.ts`. -/
def COMMON_HOOKS : List String :=
  ["pre-commit", "commit-msg", "pre-push", "post-checkout", "post-commit",
   "post-merge", "pre-rebase"]

/-- The filter `detectHooks` applies to directory listings: drop hidden
entries, the husky `_` entry, and markdown/text files. -/
def isHookName (n : String) : Bool :=
  !strStartsWith n "." && n != "_" && !strEndsWith n ".md" && !strEndsWith n ".txt"

/-- Model of `HookManager.detectHooks`: lists the hook directory and
filters the names; a missing directory yields the empty list. -/
def detectHooks : HuskyDir → List String
  | none => []
  | some es => (es.map fun e => e.1).filter isHookName

/-- Reading a named file out of a directory listing: the content when
the first entry of that name is a regular file, nothing otherwise. -/
def findContent (es : List (String × FsNode)) (name : String) : Option String :=
  match es.find? fun e => e.1 = name with
  | some (_, .file c) => some c
  | _ => none

/-- Reading a directory entry as a file (`fs.readFile`): yields the
content for a regular file, nothing when the entry is missing, the
directory is missing, or the entry is a subdirectory (unreadable). -/
def readEntry (d : HuskyDir) (name : String) : Option String :=
  match d with
  | none => none
  | some es => findContent es name

/-- The per-entry effect of `disableHooks`: a detected regular-file
hook has its content overwritten with `NOOP_HOOK_CONTENT`;
subdirectory entries are skipped by the `stats.isFile()` guard and
filtered-out names are untouched. -/
def neutralizeEntry (e : String × FsNode) : String × FsNode :=
  if isHookName e.1 then
    match e.2 with
    | .file _ => (e.1, .file NOOP_HOOK_CONTENT)
    | .subdir => e
  else e

/-- Model of `HookManager.disableHooks`: neutralizes every entry of an
existing hook directory. -/
def disableHooks : HuskyDir → HuskyDir
  | none => none
  | some es => some (es.map neutralizeEntry)

/-- Writing a file into a directory listing (`fs.writeFile`): fails
when the name is already taken by a subdirectory, otherwise overwrites
the existing file or appends a new one. -/
def writeFileNode (es : List (String × FsNode)) (n c : String) :
    Except String (List (String × FsNode)) :=
  match es.find? fun e => e.1 = n with
  | some (_, .subdir) => .error "EISDIR"
  | some (_, .file _) =>
    .ok (es.map fun e => if e.1 = n then (n, .file c) else e)
  | none => .ok (es ++ [(n, .file c)])

/-- Model of `HookManager.createNoOpHooks`: ensures the directory
exists, then writes `NOOP_HOOK_CONTENT` for every common hook name in
order; the loop has no per-hook catch, so the first write failure
aborts the whole operation. -/
def createNoOpHooks : HuskyDir → Except String HuskyDir
  | none =>
    (COMMON_HOOKS.foldlM (fun es n => writeFileNode es n NOOP_HOOK_CONTENT) []).map some
  | some es =>
    (COMMON_HOOKS.foldlM (fun es n => writeFileNode es n NOOP_HOOK_CONTENT) es).map some

/-- Model of `HookManager.verifyHooksDisabled`: true when every
detected hook reads as a file whose content contains the marker; an
unreadable entry makes it false; an empty detection list makes it
true.  The source wraps everything in a catch that returns `false`, so
the operation never throws; the model is total by construction. -/
def verifyHooksDisabled (d : HuskyDir) : Bool :=
  (detectHooks d).all fun n =>
    match readEntry d n with
    | some c => strIncludes c MARKER
    | none => false

end HookManager

/-!
Snapshot store (`src/utils/backup.ts`, `BackupManager`).  A snapshot
entry records the backup copy location, the original path, the kind,
and an optional checksum (computed at capture for file entries only).
-/

/-- The `BackupFileType` enum. -/
inductive BackupFileType
  | file
  | directory
deriving DecidableEq, Repr

/-- The `BackupFile` record from `src/types/interfaces.ts`. -/
structure BackupFile where
  path : String
  originalPath : String
  type : BackupFileType
  checksum : Option String
deriving DecidableEq, Repr

/-- The `BackupInfo` record (the snapshot manifest): identity,
location, captured entries and the embedded git configuration state. -/
structure BackupInfo where
  id : String
  location : String
  files : List BackupFile
  gitConfig : GitManager.GitConfigBackup
deriving DecidableEq, Repr

/-- A filesystem operation issued during restore. -/
inductive FsOp
  | rmRecursive (p : String)
  | cpRecursive (src dst : String)
  | copyFile (src dst : String)
deriving DecidableEq, Repr

namespace BackupManager

/-- Model of the checksum computation in `backupItem`: file entries get
a digest of the source content, directory entries get none.  The hash
itself is an external primitive (`crypto.createHash`), abstracted as a
parameter. -/
def entryChecksum (hash : String → String) (type : BackupFileType)
    (content : String) : Option String :=
  match type with
  | .file => some (hash content)
  | .directory => none

/-- Model of `backupItem`: the entry appended to the manifest for one
captured item. -/
def backupItem (hash : String → String) (loc relPath srcPath : String)
    (type : BackupFileType) (content : String) : BackupFile where
  path := loc ++ "/" ++ relPath
  originalPath := srcPath
  type := type
  checksum := entryChecksum hash type content

/-- The filesystem operations `restoreFile` performs for one entry: a
directory entry is removed at its original path and the stored copy is
copied back recursively; a file entry is copied over its original
path.  No field other than `path`, `originalPath` and `type` is read. -/
def restoreFilePlan (f : BackupFile) : List FsOp :=
  match f.type with
  | .directory => [.rmRecursive f.originalPath, .cpRecursive f.path f.originalPath]
  | .file => [.copyFile f.path f.originalPath]

/-- The filesystem operations of a full `restoreBackup` on the success
path: each entry's operations in manifest order, then recursive
removal of the backup location. -/
def restoreBackupPlan (files : List BackupFile) (loc : String) : List FsOp :=
  (files.map restoreFilePlan).flatten ++ [.rmRecursive loc]

/-- The message carried by the error `restoreFile` rethrows for one
failed entry. -/
def restoreErrMsg (f : BackupFile) : String :=
  "Failed to restore " ++ f.originalPath

/-- Model of the `restoreBackup` loop over the manifest entries, with
`ok` abstracting whether the filesystem operations for an entry
succeed.  `restoreFile` rethrows the first error and `restoreBackup`
has no per-entry catch, so the loop stops at the first failing entry:
the result pairs the propagated error (if any) with the list of
entries actually attempted, in order. -/
def restoreBackupRun (ok : BackupFile → Bool) :
    List BackupFile → Option String × List BackupFile
  | [] => (none, [])
  | f :: fs =>
    if ok f then
      let r := restoreBackupRun ok fs
      (r.1, f :: r.2)
    else (some (restoreErrMsg f), [f])

end BackupManager

/-!
Durable handoff and the two pipelines (`src/setup.ts`,
`src/utils/backup.ts` second half).  The GitHub Actions state store is
modelled by its three keys; `core.saveState` JSON-serializes the
`BackupInfo`, and `cleanupEnvironment` parses it back, so the stored
`originalConfigs` key is modelled as the `BackupInfo` value that was
serialized at the moment of the `saveState` call.
-/

/-- The three durable state keys (`STATE_KEYS` in `constants.ts`),
with the serialized snapshot modelled by value. -/
structure ActionState where
  backupLocation : Option String
  originalConfigs : Option BackupInfo
  cleanupRequired : Option String
deriving DecidableEq, Repr

namespace SetupPipeline

/-- Model of the capture phase of `setupEnvironment` (steps 3 and 4)
with `backupConfigs` enabled: `createBackup` produces a `BackupInfo`
whose `gitConfig` is the empty record, the two state keys are saved
immediately (`BACKUP_LOCATION` and the JSON of that `BackupInfo`), and
only afterwards `backupGitConfig` runs, its result being attached to
the in-memory `result.backupInfo` and never re-saved.  Returns the
durable state as written and the in-memory `BackupInfo`. -/
def setupCapturePhase (st : GitState) (id loc : String)
    (capturedFiles : List BackupFile) : ActionState × BackupInfo :=
  let bi0 : BackupInfo :=
    ⟨id, loc, capturedFiles, GitManager.emptyGitConfigBackup⟩
  let savedState : ActionState := ⟨some loc, some bi0, none⟩
  let bi1 : BackupInfo := { bi0 with gitConfig := GitManager.backupGitConfig st }
  (savedState, bi1)

/-- The git-configuration effect of `rollbackSetup`: it first calls
`restoreGitConfig` on the captured record, and later (after the hook
directory restore, which does not touch git config) calls
`enableHooks`, which unsets `core.hooksPath` at both scopes.  The
remaining rollback actions (`enableLintingTools`, `restoreBackup`)
issue no git config commands. -/
def rollbackGit (b : GitManager.GitConfigBackup) (st : GitState) : GitState :=
  GitManager.enableHooks (GitManager.restoreGitConfig b st)

end SetupPipeline

namespace CleanupPipeline

/-- The git-restore step (step 2) of `cleanupEnvironment`: when a
`BackupInfo` was recovered from the durable state, its `gitConfig`
field is an object (always truthy in `backupInfo?.gitConfig`), so
`restoreGitConfig` runs on it; with no recovered record the fallback
is `enableHooks`. -/
def cleanupGitStep (recovered : Option BackupInfo) (st : GitState) : GitState :=
  match recovered with
  | some bi => GitManager.restoreGitConfig bi.gitConfig st
  | none => GitManager.enableHooks st

end CleanupPipeline

/-!
Emergency cleanup (`performEmergencyCleanup` in `src/utils/backup.ts`).
Each sub-step is a fallible transformer of an abstract world state
(the sub-steps delegate to `GitManager.enableHooks`,
`HookManager.restoreHooks`, `ConfigManager.enableLintingTools` and
`BackupManager.cleanupOldBackups`, each applied to external state);
the function wraps every sub-step in its own try/catch that logs the
error and continues.
-/

/-- A fallible sub-step over a world of type `W`. -/
def Step (W : Type) : Type := W → Except String W

/-- Running one sub-step inside its own try/catch: on success the
world advances, on failure the error is appended to the log and the
world is left as it was. -/
def runStepIsolated {W : Type} (acc : W × List String) (s : Step W) :
    W × List String :=
  match s acc.1 with
  | .ok w => (w, acc.2)
  | .error e => (acc.1, acc.2 ++ [e])

/-- Model of `performEmergencyCleanup`: the four sub-steps (re-enable
hook redirection, restore hook directory from backup, re-enable lint
tooling, expire old backups) run in order, each isolated in its own
try/catch; the result is the final world plus the log of caught
errors — the function itself always returns. -/
def performEmergencyCleanup {W : Type}
    (enableHooksStep restoreHooksStep enableLintStep sweepStep : Step W)
    (w : W) : W × List String :=
  runStepIsolated
    (runStepIsolated
      (runStepIsolated
        (runStepIsolated (w, []) enableHooksStep) restoreHooksStep)
      enableLintStep)
    sweepStep

/-!
Helper lemmas shared by the claim theorems.
-/

/-- An `ignoreReturnCode` unset always leaves the key absent, whether
or not it was set. -/
theorem execIgnoreRC_unset_eval (m : ConfigMap) (k : String) :
    execIgnoreRC m (gitConfigUnset m k) k = none := by
  unfold gitConfigUnset
  rcases h : m k with _ | v
  · simp [execIgnoreRC, h]
  · simp [h, execIgnoreRC, unsetKey]

/-- An `ignoreReturnCode` unset leaves every other key unchanged. -/
theorem execIgnoreRC_unset_other (m : ConfigMap) (k k' : String) (h : k' ≠ k) :
    execIgnoreRC m (gitConfigUnset m k) k' = m k' := by
  unfold gitConfigUnset
  rcases hm : m k with _ | v
  · simp [execIgnoreRC, hm]
  · simp [hm, execIgnoreRC, unsetKey, h]

/-- The model of `getGitConfig` never reports an empty string. -/
theorem getGitConfig_ne_empty (st : GitState) (k v : String)
    (h : GitManager.getGitConfig st k = some v) : v ≠ "" := by
  unfold GitManager.getGitConfig at h
  rcases he : GitManager.effectiveLookup st k with _ | w
  · simp [he] at h
  · rw [he] at h
    by_cases hw : w = ""
    · simp [hw] at h
    · simp only [if_neg hw, Option.some.injEq] at h
      exact h ▸ hw

/-- Applying `truthyOpt` to a `getGitConfig` read is the identity: the
read already maps the empty string to `undefined`. -/
theorem truthyOpt_getGitConfig (st : GitState) (k : String) :
    GitManager.truthyOpt (GitManager.getGitConfig st k) =
      GitManager.getGitConfig st k := by
  rcases h : GitManager.getGitConfig st k with _ | v
  · rfl
  · simp [GitManager.truthyOpt, getGitConfig_ne_empty st k v h]

/-- The `originalConfigs` restore loop touches only the global scope. -/
theorem foldl_setGlobal_localConfig (l : List (String × String)) (s : GitState) :
    (l.foldl (fun s kv => { s with globalConfig := setKey s.globalConfig kv.1 kv.2 }) s).localConfig
      = s.localConfig := by
  induction l generalizing s with
  | nil => rfl
  | cons kv rest ih => simpa using ih _

/-- The `originalConfigs` restore loop leaves a key untouched when no
entry names it. -/
theorem foldl_setGlobal_other (l : List (String × String)) (s : GitState)
    (k : String) (h : ∀ kv ∈ l, kv.1 ≠ k) :
    (l.foldl (fun s kv => { s with globalConfig := setKey s.globalConfig kv.1 kv.2 }) s).globalConfig k
      = s.globalConfig k := by
  induction l generalizing s with
  | nil => rfl
  | cons kv rest ih =>
    have hk : kv.1 ≠ k := h kv (by simp)
    have hrest : ∀ kv' ∈ rest, kv'.1 ≠ k := fun kv' hm => h kv' (by simp [hm])
    simp only [List.foldl_cons]
    rw [ih _ hrest]
    simp only [setKey]
    rw [if_neg fun hh => hk hh.symm]

/-- Every key recorded in a captured `originalConfigs` comes from the
fixed `additionalConfigs` list. -/
theorem backupGitConfig_extras_keys (st : GitState) (kv : String × String)
    (h : kv ∈ (GitManager.backupGitConfig st).originalConfigs) :
    kv.1 ∈ GitManager.additionalConfigs := by
  unfold GitManager.backupGitConfig at h
  simp only [List.mem_filterMap] at h
  obtain ⟨a, ha, hm⟩ := h
  obtain ⟨v, hv, hkv⟩ := Option.map_eq_some'.mp hm
  subst hkv
  exact ha

/-- The local scope after `restoreGitConfig`, read at `core.hooksPath`:
the captured value when truthy, absent otherwise. -/
theorem restore_localConfig_hooksPath (b : GitManager.GitConfigBackup) (st : GitState) :
    (GitManager.restoreGitConfig b st).localConfig "core.hooksPath" =
      GitManager.truthyOpt b.hooksPath := by
  unfold GitManager.restoreGitConfig
  rcases GitManager.truthyOpt b.userName with _ | u <;>
    rcases GitManager.truthyOpt b.userEmail with _ | e <;>
    rcases h3 : GitManager.truthyOpt b.hooksPath with _ | p <;>
    rcases GitManager.truthyOpt b.remoteUrl with _ | r <;>
    simp [foldl_setGlobal_localConfig, setKey, execIgnoreRC_unset_eval]

/-- The local scope after `restoreGitConfig` is unchanged away from
the two locally-written keys. -/
theorem restore_localConfig_other (b : GitManager.GitConfigBackup) (st : GitState)
    (k : String) (h1 : k ≠ "core.hooksPath") (h2 : k ≠ "remote.origin.url") :
    (GitManager.restoreGitConfig b st).localConfig k = st.localConfig k := by
  unfold GitManager.restoreGitConfig
  rcases GitManager.truthyOpt b.userName with _ | u <;>
    rcases GitManager.truthyOpt b.userEmail with _ | e <;>
    rcases GitManager.truthyOpt b.hooksPath with _ | p <;>
    rcases GitManager.truthyOpt b.remoteUrl with _ | r <;>
    simp [foldl_setGlobal_localConfig, setKey, h1, h2,
      execIgnoreRC_unset_other _ _ _ h1]

/-- The global scope after `restoreGitConfig` is unchanged at a key
different from the named identity keys and from every extra entry. -/
theorem restore_globalConfig_other (b : GitManager.GitConfigBackup) (st : GitState)
    (k : String) (h1 : k ≠ "user.name") (h2 : k ≠ "user.email")
    (hex : ∀ kv ∈ b.originalConfigs, kv.1 ≠ k) :
    (GitManager.restoreGitConfig b st).globalConfig k = st.globalConfig k := by
  unfold GitManager.restoreGitConfig
  rcases GitManager.truthyOpt b.userName with _ | u <;>
    rcases GitManager.truthyOpt b.userEmail with _ | e <;>
    rcases GitManager.truthyOpt b.hooksPath with _ | p <;>
    rcases GitManager.truthyOpt b.remoteUrl with _ | r <;>
    simp [foldl_setGlobal_other _ _ _ hex, setKey, h1, h2]

/-- The global scope after `restoreGitConfig` holds the captured user
name when it is truthy and no extra entry names `user.name`. -/
theorem restore_globalConfig_userName (b : GitManager.GitConfigBackup) (st : GitState)
    (v : String) (hv : GitManager.truthyOpt b.userName = some v)
    (hex : ∀ kv ∈ b.originalConfigs, kv.1 ≠ "user.name") :
    (GitManager.restoreGitConfig b st).globalConfig "user.name" = some v := by
  unfold GitManager.restoreGitConfig
  rw [hv]
  rcases GitManager.truthyOpt b.userEmail with _ | e <;>
    rcases GitManager.truthyOpt b.hooksPath with _ | p <;>
    rcases GitManager.truthyOpt b.remoteUrl with _ | r <;>
    simp [foldl_setGlobal_other _ _ _ hex, setKey]

/-- After `enableHooks`, keys other than `core.hooksPath` are
untouched at both scopes. -/
theorem enableHooks_other (st : GitState) (k : String) (h : k ≠ "core.hooksPath") :
    (GitManager.enableHooks st).localConfig k = st.localConfig k ∧
      (GitManager.enableHooks st).globalConfig k = st.globalConfig k := by
  unfold GitManager.enableHooks
  exact ⟨execIgnoreRC_unset_other _ _ _ h, execIgnoreRC_unset_other _ _ _ h⟩

/-!
Claim theorems.
-/

/-- C6: the config-path-redirection inverse (`enableHooks`, which
unsets `core.hooksPath` at local and global scope with
`ignoreReturnCode: true`) can be called twice in a row from any
starting state — including one where a scope was never set — without
error (the model is a total function because each unset discards its
failure), and after each of the two calls the key is absent at both
scopes. -/
theorem C6_enableHooks_idempotent_unset (st : GitState) :
    (GitManager.enableHooks st).localConfig "core.hooksPath" = none ∧
    (GitManager.enableHooks st).globalConfig "core.hooksPath" = none ∧
    (GitManager.enableHooks (GitManager.enableHooks st)).localConfig "core.hooksPath" = none ∧
    (GitManager.enableHooks (GitManager.enableHooks st)).globalConfig "core.hooksPath" = none :=
  ⟨execIgnoreRC_unset_eval _ _, execIgnoreRC_unset_eval _ _,
   execIgnoreRC_unset_eval _ _, execIgnoreRC_unset_eval _ _⟩

/-- C9: a git config key whose effective value at capture time is the
empty string is read by `getGitConfig` as absent (the source returns
`output.trim() || undefined`), so `backupGitConfig` records it exactly
as it records a key that was never set: the two concrete states below
— one with `user.name` set to the empty string, one with no keys at
all — capture to identical records. -/
theorem C9_empty_string_captured_as_absent :
    (∀ (st : GitState) (k : String),
      GitManager.effectiveLookup st k = some "" → GitManager.getGitConfig st k = none) ∧
    GitManager.backupGitConfig ⟨setKey emptyMap "user.name" "", emptyMap⟩ =
      GitManager.backupGitConfig ⟨emptyMap, emptyMap⟩ := by
  constructor
  · intro st k h
    simp [GitManager.getGitConfig, h]
  · decide

/-- Witness for C9 at a concrete state holding `user.name` as the
empty string. -/
theorem C9_witness :
    GitManager.getGitConfig ⟨setKey emptyMap "user.name" "", emptyMap⟩ "user.name" = none :=
  C9_empty_string_captured_as_absent.1
    ⟨setKey emptyMap "user.name" "", emptyMap⟩ "user.name" (by decide)

/-- C10: snapshot restore never reads the recorded checksums.
Replacing every entry's checksum by an arbitrary value leaves the
per-entry filesystem operations and the whole-restore operation
sequence unchanged, while capture does store a digest of the file
content for file entries — so a corrupted backup copy is restored
without any integrity check. -/
theorem C10_restore_ignores_checksums :
    (∀ (f : BackupFile) (c : Option String),
      BackupManager.restoreFilePlan { f with checksum := c } =
        BackupManager.restoreFilePlan f) ∧
    (∀ (files : List BackupFile) (loc : String) (newsum : BackupFile → Option String),
      BackupManager.restoreBackupPlan (files.map fun f => { f with checksum := newsum f }) loc =
        BackupManager.restoreBackupPlan files loc) ∧
    (∀ (hash : String → String) (loc relPath srcPath content : String),
      (BackupManager.backupItem hash loc relPath srcPath .file content).checksum =
        some (hash content)) := by
  refine ⟨fun f c => ?_, fun files loc newsum => ?_, fun _ _ _ _ _ => rfl⟩
  · rcases f with ⟨p, o, t, s⟩
    cases t <;> rfl
  · unfold BackupManager.restoreBackupPlan
    induction files with
    | nil => rfl
    | cons f fs ih =>
      simp only [List.map_cons, List.flatten_cons, List.append_assoc] at ih ⊢
      rw [ih]
      rcases f with ⟨p, o, t, s⟩
      cases t <;> rfl

/-- C8: emergency cleanup isolates every sub-step in its own
try/catch, so a failing sub-step does not prevent the later ones from
running on the world the earlier successes produced, and the whole
operation returns normally (the model is a total function) with the
caught errors logged in order rather than propagated: here the first
and third sub-steps fail and the second and fourth still run. -/
theorem C8_emergency_isolation {W : Type} (s1 s2 s3 s4 : Step W) (w w2 w4 : W)
    (a b : String) (h1 : s1 w = .error a) (h2 : s2 w = .ok w2)
    (h3 : s3 w2 = .error b) (h4 : s4 w2 = .ok w4) :
    performEmergencyCleanup s1 s2 s3 s4 w = (w4, [a, b]) := by
  simp [performEmergencyCleanup, runStepIsolated, h1, h2, h3, h4]

/-- Witness for C8 with concrete sub-steps over a numeric world. -/
theorem C8_witness :
    performEmergencyCleanup (fun (_ : Nat) => .error "hooks failed")
        (fun n => .ok (n + 1)) (fun _ => .error "lint failed")
        (fun n => .ok (n * 2)) 0 = (2, ["hooks failed", "lint failed"]) :=
  C8_emergency_isolation _ _ _ _ 0 1 2 "hooks failed" "lint failed" rfl rfl rfl rfl

/-- C2 counterexample: `restoreBackup` is not best-effort.  With two
entries and the first one failing, the loop rethrows immediately: the
attempted-entry list is only the failing first entry, and the second
entry is never attempted, contradicting the claim that every
remaining entry is attempted and errors are surfaced only after all
entries. -/
theorem C2_counterexample :
    BackupManager.restoreBackupRun (fun f => f.originalPath != "package.json")
        [⟨"loc/package.json", "package.json", .file, none⟩,
         ⟨"loc/commitlint.config.js", "commitlint.config.js", .file, none⟩] =
      (some "Failed to restore package.json",
        [⟨"loc/package.json", "package.json", .file, none⟩]) ∧
    (⟨"loc/commitlint.config.js", "commitlint.config.js", .file,
        none⟩ : BackupFile) ∉
      [(⟨"loc/package.json", "package.json", .file, none⟩ : BackupFile)] := by
  decide

/-- C2 amended: for every snapshot entry list, restore attempts the
entries in order only up to and including the first failing one; its
error propagates at once (`restoreFile` rethrows and `restoreBackup`
has no per-entry accumulator) and the remaining entries are not
attempted. -/
theorem C2_amended (ok : BackupFile → Bool) (pre : List BackupFile) (f : BackupFile)
    (post : List BackupFile) (hpre : ∀ g ∈ pre, ok g = true) (hf : ok f = false) :
    BackupManager.restoreBackupRun ok (pre ++ f :: post) =
      (some (BackupManager.restoreErrMsg f), pre ++ [f]) := by
  induction pre with
  | nil => simp [BackupManager.restoreBackupRun, hf]
  | cons g rest ih =>
    have hg : ok g = true := hpre g (by simp)
    have hrest : ∀ g₂ ∈ rest, ok g₂ = true := fun g₂ hm => hpre g₂ (by simp [hm])
    simp [BackupManager.restoreBackupRun, hg, ih hrest]

/-- Witness for the amended C2 on a concrete three-entry manifest
whose middle entry fails. -/
theorem C2_amended_witness :
    BackupManager.restoreBackupRun (fun f => f.originalPath != "package.json")
        ([⟨"loc/.husky", ".husky", .directory, none⟩] ++
          ⟨"loc/package.json", "package.json", .file, none⟩ ::
            [⟨"loc/.commitlintrc", ".commitlintrc", .file, none⟩]) =
      (some (BackupManager.restoreErrMsg
          ⟨"loc/package.json", "package.json", .file, none⟩),
        [⟨"loc/.husky", ".husky", .directory, none⟩] ++
          [⟨"loc/package.json", "package.json", .file, none⟩]) :=
  C2_amended _ _ _ _ (by decide) (by decide)

/-- Truthiness filtering never yields the empty string. -/
theorem truthyOpt_ne_some_empty (x : Option String) :
    GitManager.truthyOpt x ≠ some "" := by
  rcases x with _ | v
  · simp [GitManager.truthyOpt]
  · by_cases hv : v = "" <;> simp [GitManager.truthyOpt, hv]

/-- No key of the fixed additional-config list is a named identity
key. -/
theorem additionalConfigs_not_named (x : String)
    (h : x ∈ GitManager.additionalConfigs) :
    x ≠ "user.name" ∧ x ≠ "user.email" ∧ x ≠ "core.hooksPath" := by
  fin_cases h <;> exact ⟨by decide, by decide, by decide⟩

/-- Values recorded in a captured `originalConfigs` are never the
empty string (the `if (value)` guard drops falsy reads). -/
theorem backupGitConfig_extras_values_nonempty (st : GitState)
    (kv : String × String) (h : kv ∈ (GitManager.backupGitConfig st).originalConfigs) :
    kv.2 ≠ "" := by
  unfold GitManager.backupGitConfig at h
  simp only [List.mem_filterMap] at h
  obtain ⟨a, ha, hm⟩ := h
  obtain ⟨v, hv, hkv⟩ := Option.map_eq_some'.mp hm
  subst hkv
  exact getGitConfig_ne_empty st a v hv

/-- With no truthy captured user name, `restoreGitConfig` leaves the
global `user.name` untouched provided no extra entry names it. -/
theorem restore_globalConfig_userName_none (b : GitManager.GitConfigBackup)
    (st : GitState) (hv : GitManager.truthyOpt b.userName = none)
    (hex : ∀ kv ∈ b.originalConfigs, kv.1 ≠ "user.name") :
    (GitManager.restoreGitConfig b st).globalConfig "user.name" =
      st.globalConfig "user.name" := by
  unfold GitManager.restoreGitConfig
  rw [hv]
  rcases GitManager.truthyOpt b.userEmail with _ | e <;>
    rcases GitManager.truthyOpt b.hooksPath with _ | p <;>
    rcases GitManager.truthyOpt b.remoteUrl with _ | r <;>
    simp [foldl_setGlobal_other _ _ _ hex, setKey]

/-- C4 corrected: only `core.hooksPath` receives the unset-on-absent
treatment (at local scope, with `ignoreReturnCode`, so an
already-unset key is no error); a captured-absent user name leaves the
currently-set value in place instead of unsetting it; and restore
never writes an empty-string value into `core.hooksPath`, while
captured extras never carry empty values. -/
theorem C4_amended :
    (∀ (b : GitManager.GitConfigBackup) (st : GitState),
      GitManager.truthyOpt b.hooksPath = none →
        (GitManager.restoreGitConfig b st).localConfig "core.hooksPath" = none) ∧
    (∀ (st0 st : GitState), GitManager.getGitConfig st0 "user.name" = none →
      (GitManager.restoreGitConfig (GitManager.backupGitConfig st0) st).globalConfig "user.name" =
        st.globalConfig "user.name") ∧
    (∀ (b : GitManager.GitConfigBackup) (st : GitState),
      (GitManager.restoreGitConfig b st).localConfig "core.hooksPath" ≠ some "") ∧
    (∀ (st0 : GitState) (kv : String × String),
      kv ∈ (GitManager.backupGitConfig st0).originalConfigs → kv.2 ≠ "") := by
  refine ⟨fun b st h => ?_, fun st0 st h => ?_, fun b st => ?_,
    backupGitConfig_extras_values_nonempty⟩
  · rw [restore_localConfig_hooksPath, h]
  · have hex : ∀ kv ∈ (GitManager.backupGitConfig st0).originalConfigs,
        kv.1 ≠ "user.name" := fun kv hm =>
      (additionalConfigs_not_named kv.1 (backupGitConfig_extras_keys st0 kv hm)).1
    have hv : GitManager.truthyOpt (GitManager.backupGitConfig st0).userName = none := by
      have : (GitManager.backupGitConfig st0).userName =
          GitManager.getGitConfig st0 "user.name" := rfl
      rw [this, h]
      rfl
    exact restore_globalConfig_userName_none _ _ hv hex
  · rw [restore_localConfig_hooksPath]
    exact truthyOpt_ne_some_empty _

/-- Witness for the amended C4: a capture over an empty configuration
restored onto a state where `user.name` and `core.hooksPath` were set
in the meantime. -/
theorem C4_amended_witness :
    (GitManager.restoreGitConfig
        (GitManager.backupGitConfig ⟨emptyMap, emptyMap⟩)
        ⟨setKey emptyMap "core.hooksPath" "/dev/null",
          setKey emptyMap "user.name" "copilot-swe-agent[bot]"⟩).localConfig
      "core.hooksPath" = none ∧
    (GitManager.restoreGitConfig
        (GitManager.backupGitConfig ⟨emptyMap, emptyMap⟩)
        ⟨setKey emptyMap "core.hooksPath" "/dev/null",
          setKey emptyMap "user.name" "copilot-swe-agent[bot]"⟩).globalConfig
      "user.name" = some "copilot-swe-agent[bot]" := by
  constructor
  · exact C4_amended.1 _ _ (by decide)
  · rw [C4_amended.2.1 ⟨emptyMap, emptyMap⟩ _ (by decide)]
    decide

/-- C4 counterexample: `user.name` was unset at capture time and set
afterwards; the claim requires restore to unset it, but the code's
restore leaves it set (only `core.hooksPath` has an unset branch). -/
theorem C4_counterexample :
    (GitManager.backupGitConfig ⟨emptyMap, emptyMap⟩).userName = none ∧
    GitManager.getGitConfig
        (GitManager.restoreGitConfig (GitManager.backupGitConfig ⟨emptyMap, emptyMap⟩)
          ⟨emptyMap, setKey emptyMap "user.name" "copilot"⟩) "user.name" =
      some "copilot" := by
  decide

/-- C7 counterexample: a record holding `user.name` both as the named
field (`alice`) and in the extras map (`bob`) restores to `bob`: the
extras loop runs after the named fields at the same global scope, so
the extras' value — not the named field's value — is the one in
effect. -/
theorem C7_counterexample :
    GitManager.getGitConfig
        (GitManager.restoreGitConfig
          ⟨some "alice", none, none, none, [("user.name", "bob")]⟩
          ⟨emptyMap, emptyMap⟩) "user.name" = some "bob" ∧
    ("bob" : String) ≠ "alice" := by
  decide

/-- C7 amended: restore does apply the named fields before the extras
map, but which value is in effect for a key recorded both ways depends
on the scope the named write uses: `user.name` (and `user.email`) are
written at global scope, where the later extras write wins, so such a
conflict ends at the extras' value; `core.hooksPath` and
`remote.origin.url` are written at local scope (`git config` without
`--global`, and `git remote set-url origin`, which edits the
repository's local config), so there the named field shadows the
extras' global write. -/
theorem C7_amended (st : GitState) (u p r w q t : String) (hu : u ≠ "")
    (hp : p ≠ "") (hr : r ≠ "") (hw : w ≠ "")
    (hlocal : st.localConfig "user.name" = none) :
    GitManager.getGitConfig
        (GitManager.restoreGitConfig
          ⟨some u, none, some p, some r,
            [("user.name", w), ("core.hooksPath", q), ("remote.origin.url", t)]⟩ st)
        "user.name" = some w ∧
    GitManager.getGitConfig
        (GitManager.restoreGitConfig
          ⟨some u, none, some p, some r,
            [("user.name", w), ("core.hooksPath", q), ("remote.origin.url", t)]⟩ st)
        "core.hooksPath" = some p ∧
    GitManager.getGitConfig
        (GitManager.restoreGitConfig
          ⟨some u, none, some p, some r,
            [("user.name", w), ("core.hooksPath", q), ("remote.origin.url", t)]⟩ st)
        "remote.origin.url" = some r := by
  unfold GitManager.restoreGitConfig
  simp only [GitManager.truthyOpt, if_neg hu, if_neg hp, if_neg hr]
  simp [GitManager.getGitConfig, GitManager.effectiveLookup, setKey, hlocal,
    hw, hp, hr]

/-- Witness for the amended C7 on concrete conflicting records. -/
theorem C7_amended_witness :
    GitManager.getGitConfig
        (GitManager.restoreGitConfig
          ⟨some "alice", none, some "myhooks", some "https://a/named.git",
            [("user.name", "bob"), ("core.hooksPath", "other"),
              ("remote.origin.url", "https://a/extra.git")]⟩
          ⟨emptyMap, emptyMap⟩) "user.name" = some "bob" ∧
    GitManager.getGitConfig
        (GitManager.restoreGitConfig
          ⟨some "alice", none, some "myhooks", some "https://a/named.git",
            [("user.name", "bob"), ("core.hooksPath", "other"),
              ("remote.origin.url", "https://a/extra.git")]⟩
          ⟨emptyMap, emptyMap⟩) "core.hooksPath" = some "myhooks" ∧
    GitManager.getGitConfig
        (GitManager.restoreGitConfig
          ⟨some "alice", none, some "myhooks", some "https://a/named.git",
            [("user.name", "bob"), ("core.hooksPath", "other"),
              ("remote.origin.url", "https://a/extra.git")]⟩
          ⟨emptyMap, emptyMap⟩) "remote.origin.url" = some "https://a/named.git" :=
  C7_amended ⟨emptyMap, emptyMap⟩ "alice" "myhooks" "https://a/named.git" "bob"
    "other" "https://a/extra.git" (by decide) (by decide) (by decide) (by decide)
    (by decide)

/-- C3 counterexample: with `core.hooksPath` set to `myhooks` before
setup and a forward failure after the identity step, rollback does not
return the observable config to the pre-Mutating state: the captured
`myhooks` is first restored by `restoreGitConfig` and then wiped by
the unconditional `enableHooks` that `rollbackSetup` always runs
afterwards, so the key ends absent instead of `myhooks`. -/
theorem C3_counterexample :
    GitManager.getGitConfig
        ⟨setKey emptyMap "core.hooksPath" "myhooks", emptyMap⟩
        "core.hooksPath" = some "myhooks" ∧
    GitManager.getGitConfig
        (SetupPipeline.rollbackGit
          (GitManager.backupGitConfig
            ⟨setKey emptyMap "core.hooksPath" "myhooks", emptyMap⟩)
          (GitManager.disableHooks
            (GitManager.setupCopilotUser
              ⟨setKey emptyMap "core.hooksPath" "myhooks", emptyMap⟩)))
        "core.hooksPath" = none := by
  decide

/-- C3 amended: rollback is a fixed inverse sequence, not a replay of
exactly the completed steps in reverse: from any mutated state it runs
`restoreGitConfig` on the captured record and then the unconditional
`enableHooks`, so afterwards `core.hooksPath` is absent at both scopes
regardless of its captured value, while a captured `user.name` is
re-established at global scope. -/
theorem C3_amended (st0 stm : GitState) :
    (SetupPipeline.rollbackGit (GitManager.backupGitConfig st0) stm).localConfig
        "core.hooksPath" = none ∧
    (SetupPipeline.rollbackGit (GitManager.backupGitConfig st0) stm).globalConfig
        "core.hooksPath" = none ∧
    (∀ v, GitManager.getGitConfig st0 "user.name" = some v →
      (SetupPipeline.rollbackGit (GitManager.backupGitConfig st0) stm).globalConfig
        "user.name" = some v) := by
  refine ⟨execIgnoreRC_unset_eval _ _, execIgnoreRC_unset_eval _ _, fun v hv => ?_⟩
  unfold SetupPipeline.rollbackGit
  rw [(enableHooks_other _ "user.name" (by decide)).2]
  have hex : ∀ kv ∈ (GitManager.backupGitConfig st0).originalConfigs,
      kv.1 ≠ "user.name" := fun kv hm =>
    (additionalConfigs_not_named kv.1 (backupGitConfig_extras_keys st0 kv hm)).1
  have hname : GitManager.truthyOpt (GitManager.backupGitConfig st0).userName = some v := by
    have hb : (GitManager.backupGitConfig st0).userName =
        GitManager.getGitConfig st0 "user.name" := rfl
    rw [hb, hv, GitManager.truthyOpt, if_neg (getGitConfig_ne_empty st0 _ _ hv)]
  exact restore_globalConfig_userName _ _ v hname hex

/-- Witness for the amended C3 on a concrete pre-setup state. -/
theorem C3_amended_witness :
    (SetupPipeline.rollbackGit
        (GitManager.backupGitConfig ⟨emptyMap, setKey emptyMap "user.name" "alice"⟩)
        (GitManager.setupCopilotUser
          ⟨emptyMap, setKey emptyMap "user.name" "alice"⟩)).localConfig
      "core.hooksPath" = none ∧
    (SetupPipeline.rollbackGit
        (GitManager.backupGitConfig ⟨emptyMap, setKey emptyMap "user.name" "alice"⟩)
        (GitManager.setupCopilotUser
          ⟨emptyMap, setKey emptyMap "user.name" "alice"⟩)).globalConfig
      "user.name" = some "alice" :=
  ⟨(C3_amended ⟨emptyMap, setKey emptyMap "user.name" "alice"⟩
      (GitManager.setupCopilotUser ⟨emptyMap, setKey emptyMap "user.name" "alice"⟩)).1,
   (C3_amended ⟨emptyMap, setKey emptyMap "user.name" "alice"⟩
      (GitManager.setupCopilotUser ⟨emptyMap, setKey emptyMap "user.name" "alice"⟩)).2.2
     "alice" (by decide)⟩

/-- C1 evaluated at the failing input: with `user.name` set to `alice`
before setup, the capture phase attaches the captured git
configuration only to the in-memory `BackupInfo` — the durable
`original-configs` key was serialized earlier, during `createBackup`,
and holds the empty `gitConfig` record.  A separate cleanup invocation
that reads only the durable handoff therefore runs `restoreGitConfig`
on the empty record and leaves the mutated identity
(`copilot-swe-agent[bot]`) in place instead of restoring `alice`. -/
theorem C1_handoff_lacks_git_config :
    (SetupPipeline.setupCapturePhase
        ⟨emptyMap, setKey emptyMap "user.name" "alice"⟩
        "id-1" ".copilot-backup-id-1" []).2.gitConfig.userName = some "alice" ∧
    (SetupPipeline.setupCapturePhase
        ⟨emptyMap, setKey emptyMap "user.name" "alice"⟩
        "id-1" ".copilot-backup-id-1" []).1.originalConfigs =
      some ⟨"id-1", ".copilot-backup-id-1", [], GitManager.emptyGitConfigBackup⟩ ∧
    GitManager.getGitConfig
        (CleanupPipeline.cleanupGitStep
          (SetupPipeline.setupCapturePhase
            ⟨emptyMap, setKey emptyMap "user.name" "alice"⟩
            "id-1" ".copilot-backup-id-1" []).1.originalConfigs
          (GitManager.disableHooks
            (GitManager.setupCopilotUser
              ⟨emptyMap, setKey emptyMap "user.name" "alice"⟩)))
        "user.name" = some GitManager.COPILOT_USER_NAME := by
  refine ⟨by decide, by decide, ?_⟩
  decide

/-- Neutralization preserves entry names. -/
theorem neutralizeEntry_fst (e : String × FsNode) :
    (HookManager.neutralizeEntry e).1 = e.1 := by
  unfold HookManager.neutralizeEntry
  by_cases hn : HookManager.isHookName e.1
  · rw [if_pos hn]
    obtain ⟨n1, f⟩ := e
    cases f <;> rfl
  · rw [if_neg hn]

/-- Neutralization either keeps an entry's node or replaces it by a
no-op file. -/
theorem neutralizeEntry_snd (e : String × FsNode) :
    (HookManager.neutralizeEntry e).2 = e.2 ∨
      (HookManager.neutralizeEntry e).2 = .file HookManager.NOOP_HOOK_CONTENT := by
  unfold HookManager.neutralizeEntry
  by_cases hn : HookManager.isHookName e.1
  · rw [if_pos hn]
    obtain ⟨n1, f⟩ := e
    cases f with
    | file c => right; rfl
    | subdir => left; rfl
  · rw [if_neg hn]
    left; rfl

/-- Unfolding `findContent` one entry at a time. -/
theorem findContent_cons (e : String × FsNode) (es : List (String × FsNode))
    (n : String) :
    HookManager.findContent (e :: es) n =
      if e.1 = n then
        match e.2 with
        | .file c => some c
        | .subdir => none
      else HookManager.findContent es n := by
  unfold HookManager.findContent
  by_cases he : e.1 = n
  · rw [List.find?_cons_of_pos _ (by simpa using he), if_pos he]
    obtain ⟨n1, f⟩ := e
    cases f <;> rfl
  · rw [List.find?_cons_of_neg _ (by simpa using he), if_neg he]

/-- Reading through a name-preserving rewrite of a listing: the value
found is either the original one or the rewrite's fixed content. -/
theorem findContent_map_generic (g : String × FsNode → String × FsNode)
    (cw : String) (hg1 : ∀ e, (g e).1 = e.1)
    (hg2 : ∀ e, (g e).2 = e.2 ∨ (g e).2 = .file cw)
    (es : List (String × FsNode)) (n c : String)
    (h : HookManager.findContent (es.map g) n = some c) :
    HookManager.findContent es n = some c ∨ c = cw := by
  induction es with
  | nil => simp [HookManager.findContent] at h
  | cons e rest ih =>
    rw [List.map_cons, findContent_cons, hg1] at h
    rw [findContent_cons]
    by_cases he : e.1 = n
    · rw [if_pos he] at h ⊢
      rcases hg2 e with h2 | h2 <;> rw [h2] at h
      · left; exact h
      · right; exact (Option.some.inj h).symm
    · rw [if_neg he] at h ⊢
      exact ih h

/-- Reading through a single appended file entry. -/
theorem findContent_append_single (es : List (String × FsNode)) (n cw m c : String)
    (h : HookManager.findContent (es ++ [(n, .file cw)]) m = some c) :
    HookManager.findContent es m = some c ∨ c = cw := by
  induction es with
  | nil =>
    rw [List.nil_append, findContent_cons] at h
    by_cases hnm : n = m
    · rw [if_pos hnm] at h
      right; exact (Option.some.inj h).symm
    · rw [if_neg hnm] at h
      simp [HookManager.findContent] at h
  | cons e rest ih =>
    rw [List.cons_append, findContent_cons] at h
    rw [findContent_cons]
    by_cases he : e.1 = m
    · rw [if_pos he] at h ⊢
      left; exact h
    · rw [if_neg he] at h ⊢
      exact ih h

/-- Reading through one `writeFileNode`: every readable content is
either from the original listing or the written content. -/
theorem findContent_writeFileNode (es es2 : List (String × FsNode))
    (n cw m c : String) (hw : HookManager.writeFileNode es n cw = .ok es2)
    (h : HookManager.findContent es2 m = some c) :
    HookManager.findContent es m = some c ∨ c = cw := by
  unfold HookManager.writeFileNode at hw
  rcases hf : es.find? fun e => e.1 = n with _ | e1
  · rw [hf] at hw
    injection hw with hw
    subst hw
    exact findContent_append_single es n cw m c h
  · rw [hf] at hw
    obtain ⟨n1, f⟩ := e1
    cases f with
    | subdir => exact Except.noConfusion hw
    | file c0 =>
      injection hw with hw
      subst hw
      refine findContent_map_generic _ cw (fun e => ?_) (fun e => ?_) es m c h
      · by_cases hee : e.1 = n <;> simp [hee]
      · by_cases hee : e.1 = n <;> simp [hee]

/-- Reading through the fabrication loop: every readable content in
the result is either from the starting listing or the no-op body. -/
theorem findContent_foldl_noop (L : List String) (es es2 : List (String × FsNode))
    (hw : L.foldlM (fun es n => HookManager.writeFileNode es n
        HookManager.NOOP_HOOK_CONTENT) es = .ok es2)
    (m c : String) (h : HookManager.findContent es2 m = some c) :
    HookManager.findContent es m = some c ∨ c = HookManager.NOOP_HOOK_CONTENT := by
  induction L generalizing es with
  | nil =>
    injection hw with hw
    subst hw
    exact Or.inl h
  | cons k rest ih =>
    rw [List.foldlM_cons] at hw
    rcases hwk : HookManager.writeFileNode es k HookManager.NOOP_HOOK_CONTENT with e1 | es1
    · rw [hwk] at hw
      exact Except.noConfusion hw
    · rw [hwk] at hw
      replace hw : rest.foldlM (fun es n => HookManager.writeFileNode es n
          HookManager.NOOP_HOOK_CONTENT) es1 = .ok es2 := hw
      rcases ih es1 hw with h1 | h1
      · exact findContent_writeFileNode es es1 k HookManager.NOOP_HOOK_CONTENT m c hwk h1
      · exact Or.inr h1

/-- A detected hook name passes the hook-name filter. -/
theorem detectHooks_isHookName (d : HuskyDir) (n : String)
    (h : n ∈ HookManager.detectHooks d) : HookManager.isHookName n = true := by
  rcases d with _ | es
  · simp [HookManager.detectHooks] at h
  · exact (List.mem_filter.mp h).2

/-- A detected file hook is rewritten to the no-op body. -/
theorem findContent_neutralize_pos (es : List (String × FsNode)) (n c : String)
    (hn : HookManager.isHookName n = true)
    (h : HookManager.findContent es n = some c) :
    HookManager.findContent (es.map HookManager.neutralizeEntry) n =
      some HookManager.NOOP_HOOK_CONTENT := by
  induction es with
  | nil => simp [HookManager.findContent] at h
  | cons e rest ih =>
    rw [findContent_cons] at h
    rw [List.map_cons, findContent_cons, neutralizeEntry_fst]
    by_cases he : e.1 = n
    · rw [if_pos he] at h ⊢
      obtain ⟨n1, f⟩ := e
      cases f with
      | file c0 =>
        have hn1 : HookManager.isHookName n1 = true := by
          rw [show n1 = n from he]
          exact hn
        simp [HookManager.neutralizeEntry, hn1]
      | subdir => simp at h
    · rw [if_neg he] at h ⊢
      exact ih h

/-- C5: the fixed no-op body carries the marker; every hook content
readable after script neutralization (`disableHooks`) or fabrication
(`createNoOpHooks`) is either a pre-existing content or the marked
no-op body, and a detected file hook is in fact rewritten to the
marked body; and the advisory `verifyHooksDisabled` — total by
construction, it never throws — returns true exactly when every
presently detected hook reads as a file whose content contains the
marker, an unreadable hook counting as not disabled. -/
theorem C5_marker_integrity :
    strIncludes HookManager.NOOP_HOOK_CONTENT HookManager.MARKER = true ∧
    (∀ (d : HuskyDir) (n c : String),
      HookManager.readEntry (HookManager.disableHooks d) n = some c →
        HookManager.readEntry d n = some c ∨ c = HookManager.NOOP_HOOK_CONTENT) ∧
    (∀ (d : HuskyDir) (n c : String), n ∈ HookManager.detectHooks d →
      HookManager.readEntry d n = some c →
        HookManager.readEntry (HookManager.disableHooks d) n =
          some HookManager.NOOP_HOOK_CONTENT) ∧
    (∀ (d d2 : HuskyDir) (n c : String),
      HookManager.createNoOpHooks d = .ok d2 →
        HookManager.readEntry d2 n = some c →
          HookManager.readEntry d n = some c ∨ c = HookManager.NOOP_HOOK_CONTENT) ∧
    (∀ d : HuskyDir, HookManager.verifyHooksDisabled d = true ↔
      ∀ n ∈ HookManager.detectHooks d, ∃ c, HookManager.readEntry d n = some c ∧
        strIncludes c HookManager.MARKER = true) := by
  refine ⟨by decide, fun d n c h => ?_, fun d n c hn h => ?_,
    fun d d2 n c hw h => ?_, fun d => ?_⟩
  · rcases d with _ | es
    · simp [HookManager.disableHooks, HookManager.readEntry] at h
    · exact findContent_map_generic _ _ neutralizeEntry_fst neutralizeEntry_snd es n c h
  · rcases d with _ | es
    · simp [HookManager.detectHooks] at hn
    · exact findContent_neutralize_pos es n c (detectHooks_isHookName _ n hn) h
  · rcases d with _ | es
    · unfold HookManager.createNoOpHooks at hw
      rcases hf : HookManager.COMMON_HOOKS.foldlM (fun es n =>
          HookManager.writeFileNode es n HookManager.NOOP_HOOK_CONTENT) [] with e1 | es2
      · rw [hf] at hw
        exact Except.noConfusion hw
      · rw [hf] at hw
        injection hw with hw
        subst hw
        rcases findContent_foldl_noop _ _ _ hf n c h with h1 | h1
        · simp [HookManager.findContent] at h1
        · exact Or.inr h1
    · replace hw : Except.map some (HookManager.COMMON_HOOKS.foldlM (fun es n =>
          HookManager.writeFileNode es n HookManager.NOOP_HOOK_CONTENT) es) =
            Except.ok d2 := hw
      rcases hf : HookManager.COMMON_HOOKS.foldlM (fun es n =>
          HookManager.writeFileNode es n HookManager.NOOP_HOOK_CONTENT) es with e1 | es2
      · rw [hf] at hw
        exact Except.noConfusion hw
      · rw [hf] at hw
        injection hw with hw
        subst hw
        exact findContent_foldl_noop _ _ _ hf n c h
  · unfold HookManager.verifyHooksDisabled
    rw [List.all_eq_true]
    constructor
    · intro h n hn
      have hp := h n hn
      rcases hr : HookManager.readEntry d n with _ | c
      · rw [hr] at hp
        simp at hp
      · rw [hr] at hp
        exact ⟨c, rfl, hp⟩
    · intro h n hn
      obtain ⟨c, hc, hm⟩ := h n hn
      rw [hc]
      exact hm

/-- Witness for C5: a concrete pre-existing hook is rewritten to the
marked no-op body by neutralization. -/
theorem C5_witness :
    HookManager.readEntry
        (HookManager.disableHooks (some [("pre-commit", .file "#!/bin/sh\nnpx lint\n")]))
        "pre-commit" = some HookManager.NOOP_HOOK_CONTENT :=
  C5_marker_integrity.2.2.1 (some [("pre-commit", .file "#!/bin/sh\nnpx lint\n")])
    "pre-commit" "#!/bin/sh\nnpx lint\n" (by decide) (by decide)
